import Mathlib

/-!
# Verification of the local-only-code scanner

Shallow embedding of `find_local_only_code.py`: the branch-listing line
parser (two composed regular expressions, modelled by an explicit
backtracking matcher with Python's leftmost-greedy semantics), the
branch-record classifier, and the per-repository scan orchestration with
explicit process-failure propagation.
-/

namespace FindLocalCode

/-! ## Character classes

Python 2 `re` classes over byte strings: `\s`, `\w`, `\d` are ASCII. -/

/-- Python regex `\s`: `[ \t\n\r\f\v]`. -/
def isSpaceChar (c : Char) : Bool :=
  c == ' ' || c == '\t' || c == '\n' || c == '\r' || c == '\x0b' || c == '\x0c'

/-- Python regex `\w`: `[a-zA-Z0-9_]`. -/
def isWordChar (c : Char) : Bool :=
  c.isAlphanum || c == '_'

/-- Character class `[\w-]` (the remote name in `BRANCH_STATE_RE`). -/
def isRemoteChar (c : Char) : Bool :=
  isWordChar c || c == '-'

/-- Character class `[^:\]]` (the remote branch name in `BRANCH_STATE_RE`). -/
def isRemoteBranchChar (c : Char) : Bool :=
  !(c == ':') && !(c == ']')

/-- Python regex `.` (without DOTALL): any character except a newline. -/
def notNewline (c : Char) : Bool :=
  !(c == '\n')

/-! ## Backtracking regex primitives

A repetition or option node is modelled by the list of all ways it can
split the input, in the order a backtracking engine tries them (greedy:
longest first).  A sequence of nodes is the first full success over those
ordered alternatives, which is exactly Python `re` matching for these
patterns (all repetitions here are over single-character classes). -/

/-- First success over an ordered list of alternatives. -/
def firstSome {α β : Type} (f : α → Option β) : List α → Option β
  | [] => none
  | a :: as =>
    match f a with
    | some b => some b
    | none => firstSome f as

/-- All splits of `cs` as (consumed, rest) for a greedy `p+`, longest
consumed prefix first; empty when no character matches. -/
def plusSplits (p : Char → Bool) : List Char → List (List Char × List Char)
  | [] => []
  | c :: cs =>
    if p c then (plusSplits p cs).map (fun s => (c :: s.1, s.2)) ++ [([c], cs)]
    else []

/-- All splits for a greedy `p*`, longest consumed prefix first (always
ends with the empty split). -/
def starSplits (p : Char → Bool) : List Char → List (List Char × List Char)
  | [] => [([], [])]
  | c :: cs =>
    if p c then (starSplits p cs).map (fun s => (c :: s.1, s.2)) ++ [([], c :: cs)]
    else [([], c :: cs)]

/-- All splits for a greedy single-character option `p?`: consume the
head if it matches, else (and also as fallback) consume nothing. -/
def optCharSplits (p : Char → Bool) : List Char → List (Option Char × List Char)
  | [] => [(none, [])]
  | c :: cs =>
    if p c then [(some c, cs), (none, c :: cs)] else [(none, c :: cs)]

/-- Drop an exact literal from the front of the input, or fail. -/
def dropLit : List Char → List Char → Option (List Char)
  | [], cs => some cs
  | _ :: _, [] => none
  | l :: ls, c :: cs => if c == l then dropLit ls cs else none

/-- All splits for the optional group `(?:LIT(\d+))?` as
(captured digits, rest), group-present alternatives (longest digit run
first) before the group-absent fallback. -/
def countSplits (kw : List Char) (cs : List Char) :
    List (Option (List Char) × List Char) :=
  (match dropLit kw cs with
   | some cs1 => (plusSplits Char.isDigit cs1).map (fun s => (some s.1, s.2))
   | none => []) ++ [(none, cs)]

/-- Python regex `$`: end of string, or just before a single final
newline. -/
def atEnd : List Char → Bool
  | [] => true
  | [c] => c == '\n'
  | _ => false

/-- Does the head of the list satisfy `p`?  (`false` on the empty list.) -/
def headSat (p : Char → Bool) : List Char → Bool
  | [] => false
  | c :: _ => p c

/-- Is some `]` in the list immediately followed by a whitespace
character?  (Any successful `BRANCH_STATE_RE` match needs one, for its
closing `\]\s`.) -/
def hasCloseBracketSpace : List Char → Bool
  | [] => false
  | c :: cs => (c == ']' && headSat isSpaceChar cs) || hasCloseBracketSpace cs

/-! ## `BRANCH_DETAILS_RE`

`^\*?\s+(?P<name>[^ ]+)\s+(?P<head>\w+) (?P<state>.+)$`, applied with
`.match` to one listing line.  Each stage function is one node of the
pattern, continuation style, left to right. -/

/-- The three named groups of `BRANCH_DETAILS_RE`. -/
structure LineGroups where
  name : List Char
  head : List Char
  state : List Char
deriving DecidableEq, Repr

/-- Node `(?P<state>.+)$`. -/
def mdStateStage (nm hd : List Char) (cs : List Char) : Option LineGroups :=
  firstSome (fun s => if atEnd s.2 then some ⟨nm, hd, s.1⟩ else none)
    (plusSplits notNewline cs)

/-- Nodes `(?P<head>\w+)` and the literal space that follows it. -/
def mdHeadStage (nm : List Char) (cs : List Char) : Option LineGroups :=
  firstSome (fun s =>
    match s.2 with
    | ' ' :: rest => mdStateStage nm s.1 rest
    | _ => none) (plusSplits isWordChar cs)

/-- Node `\s+` between the name and the head. -/
def mdSp2Stage (nm : List Char) (cs : List Char) : Option LineGroups :=
  firstSome (fun s => mdHeadStage nm s.2) (plusSplits isSpaceChar cs)

/-- Node `(?P<name>[^ ]+)`. -/
def mdNameStage (cs : List Char) : Option LineGroups :=
  firstSome (fun s => mdSp2Stage s.1 s.2) (plusSplits (fun c => !(c == ' ')) cs)

/-- Node `\s+` after the optional star. -/
def mdSp1Stage (cs : List Char) : Option LineGroups :=
  firstSome (fun s => mdNameStage s.2) (plusSplits isSpaceChar cs)

/-- Application `BRANCH_DETAILS_RE.match(line)`: node `^\*?` then the rest. -/
def matchDetails (cs : List Char) : Option LineGroups :=
  firstSome (fun s => mdSp1Stage s.2) (optCharSplits (fun c => c == '*') cs)

/-! ## `BRANCH_STATE_RE`

`\[(?P<remote>[\w-]+)\/(?P<remote_branch>[^:\]]+):?\s?(?:ahead (?P<ahead>\d+))?,?\s?(?:behind (?P<behind>\d+))?\]\s.*$`,
applied with `.match` to the `state` group of the outer match. -/

/-- The four named groups of `BRANCH_STATE_RE`; `ahead`/`behind` are
`none` when the optional group did not participate in the match. -/
structure StateGroups where
  remote : List Char
  remote_branch : List Char
  ahead : Option (List Char)
  behind : Option (List Char)
deriving DecidableEq, Repr

/-- The literal `ahead ` inside the optional ahead group. -/
def aheadKw : List Char := ['a', 'h', 'e', 'a', 'd', ' ']

/-- The literal `behind ` inside the optional behind group. -/
def behindKw : List Char := ['b', 'e', 'h', 'i', 'n', 'd', ' ']

/-- Node `.*$` after the closing bracket and its whitespace. -/
def msTail (r rb : List Char) (ah bh : Option (List Char)) (cs : List Char) :
    Option StateGroups :=
  firstSome (fun s => if atEnd s.2 then some ⟨r, rb, ah, bh⟩ else none)
    (starSplits notNewline cs)

/-- Nodes `\]\s`. -/
def msClose (r rb : List Char) (ah bh : Option (List Char)) (cs : List Char) :
    Option StateGroups :=
  match cs with
  | ']' :: c :: cs2 => if isSpaceChar c then msTail r rb ah bh cs2 else none
  | _ => none

/-- Node `(?:behind (?P<behind>\d+))?`. -/
def msBehind (r rb : List Char) (ah : Option (List Char)) (cs : List Char) :
    Option StateGroups :=
  firstSome (fun s => msClose r rb ah s.1 s.2) (countSplits behindKw cs)

/-- Node `\s?` before the behind group. -/
def msSp2 (r rb : List Char) (ah : Option (List Char)) (cs : List Char) :
    Option StateGroups :=
  firstSome (fun s => msBehind r rb ah s.2) (optCharSplits isSpaceChar cs)

/-- Node `,?` after the ahead group. -/
def msComma (r rb : List Char) (ah : Option (List Char)) (cs : List Char) :
    Option StateGroups :=
  firstSome (fun s => msSp2 r rb ah s.2) (optCharSplits (fun c => c == ',') cs)

/-- Node `(?:ahead (?P<ahead>\d+))?`. -/
def msAhead (r rb : List Char) (cs : List Char) : Option StateGroups :=
  firstSome (fun s => msComma r rb s.1 s.2) (countSplits aheadKw cs)

/-- Node `\s?` after the optional colon. -/
def msSp1 (r rb : List Char) (cs : List Char) : Option StateGroups :=
  firstSome (fun s => msAhead r rb s.2) (optCharSplits isSpaceChar cs)

/-- Node `:?` after the remote branch. -/
def msColon (r rb : List Char) (cs : List Char) : Option StateGroups :=
  firstSome (fun s => msSp1 r rb s.2) (optCharSplits (fun c => c == ':') cs)

/-- Node `(?P<remote_branch>[^:\]]+)`. -/
def msBranch (r : List Char) (cs : List Char) : Option StateGroups :=
  firstSome (fun s => msColon r s.1 s.2) (plusSplits isRemoteBranchChar cs)

/-- Nodes `(?P<remote>[\w-]+)\/`. -/
def msRemote (cs : List Char) : Option StateGroups :=
  firstSome (fun s =>
    match s.2 with
    | '/' :: cs2 => msBranch s.1 cs2
    | _ => none) (plusSplits isRemoteChar cs)

/-- Application `BRANCH_STATE_RE.match(state)`: node `\[` then the rest. -/
def matchState (cs : List Char) : Option StateGroups :=
  match cs with
  | '[' :: cs1 => msRemote cs1
  | _ => none

/-! ## Records and the line parser -/

/-- The `Branch` namedtuple. `ahead`/`behind` are Python integers. -/
structure Branch where
  name : String
  head : String
  remote : Option String
  remote_branch : Option String
  ahead : Int
  behind : Int
deriving DecidableEq, Repr

/-- Python `int` on a string of decimal digits. -/
def natOfDigits (ds : List Char) : Nat :=
  ds.foldl (fun a c => a * 10 + (c.toNat - '0'.toNat)) 0

/-- The body of the loop in `parse_git_branch_output` for one line:
`none` exactly when `BRANCH_DETAILS_RE` does not match (the line is
skipped with a diagnostic); otherwise the yielded `Branch`, with
`groupdict(default='0')` giving absent ahead/behind counts as `'0'`. -/
def parse_branch_details (line : String) : Option Branch :=
  match matchDetails line.toList with
  | none => none
  | some g =>
    match matchState g.state with
    | some sg =>
      some ⟨g.name.asString, g.head.asString,
            some sg.remote.asString, some sg.remote_branch.asString,
            (natOfDigits (sg.ahead.getD ['0']) : Int),
            (natOfDigits (sg.behind.getD ['0']) : Int)⟩
    | none => some ⟨g.name.asString, g.head.asString, none, none, 0, 0⟩

/-- Function `parse_git_branch_output`: the sequence of records the generator
yields, in input order, skipping lines the outer pattern rejects. -/
def parse_git_branch_output (branch_output : List String) : List Branch :=
  branch_output.filterMap parse_branch_details

/-- The lines `parse_git_branch_output` reports to stderr ("Branch output
didn't match"), in input order. -/
def parse_skipped (branch_output : List String) : List String :=
  branch_output.filter (fun l => (matchDetails l.toList).isNone)

/-! ## Classifier -/

/-- Python truthiness of an optional string (`None` and `''` are falsy). -/
def optStrTruthy : Option String → Bool
  | none => false
  | some s => !(s == "")

/-- Function `check_unpushed_branches`: skip records with a falsy `remote`, skip
records with a falsy (zero) `ahead`, yield the rest as
(name, ahead, behind). -/
def check_unpushed_branches (branches : List Branch) : List (String × Int × Int) :=
  branches.filterMap (fun b =>
    if !(optStrTruthy b.remote) then none
    else if b.ahead == 0 then none
    else some (b.name, b.ahead, b.behind))

/-- Function `check_local_only_branches`, with the collaborator call
`git log --oneline ^master <name>` abstracted as the number of lines it
returns (`unique_commit_count`): for each record with a falsy `remote`,
append (name, count) when the count is non-zero. -/
def check_local_only_branches (unique_commit_count : String → Nat)
    (branches : List Branch) : List (String × Nat) :=
  branches.foldl (fun acc b =>
    if optStrTruthy b.remote then acc
    else
      if unique_commit_count b.name == 0 then acc
      else acc ++ [(b.name, unique_commit_count b.name)]) []

/-! ## Repository scan orchestration -/

/-- The `ProcessFailed` exception raised by `get_command_output_lines`. -/
structure ProcessFailed where
  message : String
  returncode : Int
  stderr : String
deriving DecidableEq, Repr

/-- The repository-introspection collaborator: each git invocation either
returns its stdout lines or fails with `ProcessFailed`. -/
structure RepoIntrospection where
  stash_list : Except ProcessFailed (List String)
  branch_vv : Except ProcessFailed (List String)
  log_not_master : String → Except ProcessFailed (List String)
  ls_untracked : Except ProcessFailed (List String)
  ls_modified : Except ProcessFailed (List String)

/-- Function `check_local_only_branches` as run inside `scan_repo`: the git log
call for a branch may fail, and the failure propagates. -/
def check_local_only_branchesE
    (log_not_master : String → Except ProcessFailed (List String))
    (branches : List Branch) : Except ProcessFailed (List (String × Nat)) :=
  branches.foldlM (fun acc b =>
    if optStrTruthy b.remote then pure acc
    else do
      let lines ← log_not_master b.name
      if lines.length == 0 then pure acc
      else pure (acc ++ [(b.name, lines.length)])) []

/-- What `scan_repo` reports for one repository.  Only the stash probe is
guarded by try/except in the source; its failure is turned into a report
(exit code 128 means "not a git repo") and ends that repository's scan. -/
inductive ScanOutcome where
  | notGitRepo
  | unknownStashError
  | scanned (stashes : Nat) (local_only : List (String × Nat))
      (unpushed : List (String × Int × Int)) (untracked : List String)
      (modified : List String) (up_to_date : Bool)
deriving DecidableEq, Repr

/-- Function `scan_repo`: probe stashes (guarded), then list and parse branches,
classify, list untracked and modified files.  A `ProcessFailed` from any
probe after the stash check is not caught and escapes as `.error`. -/
def scan_repo (repo : RepoIntrospection) : Except ProcessFailed ScanOutcome :=
  match repo.stash_list with
  | .error e =>
    .ok (if e.returncode == 128 then .notGitRepo else .unknownStashError)
  | .ok stashLines =>
    match repo.branch_vv with
    | .error e => .error e
    | .ok raw =>
      let branches := parse_git_branch_output raw
      match check_local_only_branchesE repo.log_not_master branches with
      | .error e => .error e
      | .ok local_only =>
        let unpushed := check_unpushed_branches branches
        match repo.ls_untracked with
        | .error e => .error e
        | .ok untracked =>
          match repo.ls_modified with
          | .error e => .error e
          | .ok modified =>
            .ok (.scanned stashLines.length local_only unpushed untracked modified
              (stashLines.length == 0 && local_only.isEmpty && unpushed.isEmpty
                && untracked.isEmpty && modified.isEmpty))

/-- Function `main`: scan each repository in order.  An uncaught `ProcessFailed`
aborts the loop: the outcomes of the repositories completed before it are
paired with the escaping failure, and later repositories are not scanned. -/
def main_scan : List RepoIntrospection → List ScanOutcome × Option ProcessFailed
  | [] => ([], none)
  | r :: rs =>
    match scan_repo r with
    | .error e => ([], some e)
    | .ok o => (o :: (main_scan rs).1, (main_scan rs).2)

/-! ## Reference data (the test scenario from `test_git_parsing.py`) -/

/-- The five-line reference listing from the test suite. -/
def refLines : List String :=
  ["  branch-that-is-ahead            2cb9177 [origin/ahead: ahead 1] Some commit ahead",
   "  branch-that-is-behind           3d78da4 [origin/behind: behind 2] Some non-fresh commit",
   "* master                          b6d4d57 [origin/master] Yo boi fresh",
   "  local-only                      9a7b693 Only local this one",
   "  out-of-sync                     ac9cb08 [origin/out-of-sync: ahead 1, behind 1] Rebase on the horizon"]

/-- The five records the test suite expects for `refLines`. -/
def refBranches : List Branch :=
  [⟨"branch-that-is-ahead", "2cb9177", some "origin", some "ahead", 1, 0⟩,
   ⟨"branch-that-is-behind", "3d78da4", some "origin", some "behind", 0, 2⟩,
   ⟨"master", "b6d4d57", some "origin", some "master", 0, 0⟩,
   ⟨"local-only", "9a7b693", none, none, 0, 0⟩,
   ⟨"out-of-sync", "ac9cb08", some "origin", some "out-of-sync", 1, 1⟩]

/-- A repository whose branch-listing probe fails (exit code 1). -/
def badRepo : RepoIntrospection :=
  ⟨.ok [], .error ⟨"Subprocess failed", 1, "boom"⟩, fun _ => .ok [], .ok [], .ok []⟩

/-- A repository where every probe succeeds with empty output. -/
def goodRepo : RepoIntrospection :=
  ⟨.ok [], .ok [], fun _ => .ok [], .ok [], .ok []⟩

/-- A repository whose stash probe fails with git's exit code 128
("not a git repository"). -/
def stashFailRepo : RepoIntrospection :=
  ⟨.error ⟨"Subprocess failed", 128, "fatal"⟩, .ok [], fun _ => .ok [],
   .ok [], .ok []⟩

/-! ## Splitter lemmas -/

theorem firstSome_cons {α β : Type} (f : α → Option β) (a : α) (as : List α) :
    firstSome f (a :: as)
      = match f a with | some b => some b | none => firstSome f as := rfl

theorem firstSome_head {α β : Type} {f : α → Option β} {a : α} {as : List α}
    {b : β} (h : f a = some b) : firstSome f (a :: as) = some b := by
  rw [firstSome_cons, h]

theorem firstSome_single {α β : Type} (f : α → Option β) (a : α) :
    firstSome f [a] = f a := by
  cases h : f a <;> simp [firstSome, h]

theorem firstSome_mem {α β : Type} {f : α → Option β} {l : List α} {b : β}
    (h : firstSome f l = some b) : ∃ a ∈ l, f a = some b := by
  induction l with
  | nil => simp [firstSome] at h
  | cons a as ih =>
    rw [firstSome_cons] at h
    cases ha : f a with
    | some b0 =>
      rw [ha] at h
      exact ⟨a, by simp, by simp [ha, ← h]⟩
    | none =>
      rw [ha] at h
      obtain ⟨x, hx, hfx⟩ := ih h
      exact ⟨x, by simp [hx], hfx⟩

theorem plusSplits_cons (p : Char → Bool) (c : Char) (cs : List Char) :
    plusSplits p (c :: cs)
      = if p c then (plusSplits p cs).map (fun s => (c :: s.1, s.2)) ++ [([c], cs)]
        else [] := rfl

theorem starSplits_cons (p : Char → Bool) (c : Char) (cs : List Char) :
    starSplits p (c :: cs)
      = if p c then (starSplits p cs).map (fun s => (c :: s.1, s.2)) ++ [([], c :: cs)]
        else [([], c :: cs)] := rfl

theorem plusSplits_nil {p : Char → Bool} {ys : List Char}
    (h : headSat p ys = false) : plusSplits p ys = [] := by
  cases ys with
  | nil => rfl
  | cons c cs => simp only [headSat] at h; simp [plusSplits_cons, h]

theorem plusSplits_app {p : Char → Bool} {x y : List Char}
    (hne : x ≠ []) (hall : ∀ c ∈ x, p c = true)
    (hys : headSat p y = false) :
    ∃ rest, plusSplits p (x ++ y) = (x, y) :: rest := by
  induction x with
  | nil => exact absurd rfl hne
  | cons c cs ih =>
    have hc : p c = true := hall c (by simp)
    cases cs with
    | nil =>
      refine ⟨[], ?_⟩
      rw [List.singleton_append, plusSplits_cons, if_pos hc, plusSplits_nil hys]
      rfl
    | cons d ds =>
      obtain ⟨rest, hr⟩ :=
        ih (by simp) (fun z hz => hall z (List.mem_cons_of_mem c hz))
      refine ⟨rest.map (fun s => (c :: s.1, s.2)) ++ [([c], (d :: ds) ++ y)], ?_⟩
      rw [List.cons_append, plusSplits_cons, if_pos hc, hr]
      simp

theorem starSplits_app {p : Char → Bool} {x y : List Char}
    (hall : ∀ c ∈ x, p c = true) (hys : headSat p y = false) :
    ∃ rest, starSplits p (x ++ y) = (x, y) :: rest := by
  induction x with
  | nil =>
    cases y with
    | nil => exact ⟨[], rfl⟩
    | cons c cs =>
      simp only [headSat] at hys
      exact ⟨[], by simp [starSplits_cons, hys]⟩
  | cons c cs ih =>
    have hc : p c = true := hall c (by simp)
    obtain ⟨rest, hr⟩ := ih (fun z hz => hall z (List.mem_cons_of_mem c hz))
    refine ⟨rest.map (fun s => (c :: s.1, s.2)) ++ [([], (c :: cs) ++ y)], ?_⟩
    rw [List.cons_append, starSplits_cons, if_pos hc, hr]
    simp

theorem optCharSplits_pos {p : Char → Bool} {c : Char} (cs : List Char)
    (h : p c = true) : optCharSplits p (c :: cs) = [(some c, cs), (none, c :: cs)] := by
  simp [optCharSplits, h]

theorem optCharSplits_neg {p : Char → Bool} {c : Char} (cs : List Char)
    (h : p c = false) : optCharSplits p (c :: cs) = [(none, c :: cs)] := by
  simp [optCharSplits, h]

theorem dropLit_app (kw cs : List Char) : dropLit kw (kw ++ cs) = some cs := by
  induction kw with
  | nil => rfl
  | cons l ls ih => simp [dropLit, ih]

theorem dropLit_mismatch {l c : Char} (ls cs : List Char)
    (h : (c == l) = false) : dropLit (l :: ls) (c :: cs) = none := by
  simp [dropLit, h]

theorem countSplits_no (kw cs : List Char) (h : dropLit kw cs = none) :
    countSplits kw cs = [(none, cs)] := by
  simp [countSplits, h]

theorem countSplits_yes {k d r : List Char}
    (hne : d ≠ []) (hall : ∀ c ∈ d, c.isDigit = true)
    (hrest : headSat Char.isDigit r = false) :
    ∃ tail, countSplits k (k ++ (d ++ r)) = (some d, r) :: tail := by
  obtain ⟨t, ht⟩ := plusSplits_app hne hall hrest
  refine ⟨t.map (fun s => (some s.1, s.2)) ++ [(none, k ++ (d ++ r))], ?_⟩
  simp [countSplits, dropLit_app, ht]

theorem headSat_cons (p : Char → Bool) (c : Char) (cs : List Char) :
    headSat p (c :: cs) = p c := rfl

/-! ## Character-class facts -/

theorem word_not_space {c : Char} (h : isWordChar c = true) :
    isSpaceChar c = false := by
  cases hs : isSpaceChar c with
  | false => rfl
  | true =>
    exfalso
    simp only [isSpaceChar, Bool.or_eq_true, beq_iff_eq] at hs
    rcases hs with ((((rfl | rfl) | rfl) | rfl) | rfl) | rfl <;>
      exact absurd h (by decide)

theorem notNewline_of_ne {c : Char} (h : ¬ c = '\n') : notNewline c = true := by
  simp [notNewline, h]

theorem word_notNewline {c : Char} (h : isWordChar c = true) :
    notNewline c = true := by
  refine notNewline_of_ne ?_
  rintro rfl
  exact absurd h (by decide)

theorem remote_notNewline {c : Char} (h : isRemoteChar c = true) :
    notNewline c = true := by
  refine notNewline_of_ne ?_
  rintro rfl
  exact absurd h (by decide)

theorem digit_notNewline {c : Char} (h : Char.isDigit c = true) :
    notNewline c = true := by
  refine notNewline_of_ne ?_
  rintro rfl
  exact absurd h (by decide)

/-! ## Success-shape lemmas for `BRANCH_STATE_RE` -/

theorem matchState_cons (cs : List Char) : matchState ('[' :: cs) = msRemote cs := rfl

theorem msTail_build {r rb : List Char} {ah bh : Option (List Char)}
    {msg : List Char} (hmsg : ∀ c ∈ msg, notNewline c = true) :
    msTail r rb ah bh msg = some ⟨r, rb, ah, bh⟩ := by
  obtain ⟨rest, hr⟩ := starSplits_app (p := notNewline) (y := []) hmsg rfl
  rw [List.append_nil] at hr
  unfold msTail
  rw [hr]
  exact firstSome_head rfl

theorem msClose_build {r rb : List Char} {ah bh : Option (List Char)}
    {msg : List Char} (hmsg : ∀ c ∈ msg, notNewline c = true) :
    msClose r rb ah bh (']' :: ' ' :: msg) = some ⟨r, rb, ah, bh⟩ := by
  show msTail r rb ah bh msg = some ⟨r, rb, ah, bh⟩
  exact msTail_build hmsg

theorem msAhead_ab {r rb n m msg : List Char}
    (hn : n ≠ []) (hna : ∀ c ∈ n, Char.isDigit c = true)
    (hm : m ≠ []) (hma : ∀ c ∈ m, Char.isDigit c = true)
    (hmsg : ∀ c ∈ msg, notNewline c = true) :
    msAhead r rb
        (aheadKw ++ (n ++ (',' :: ' ' :: (behindKw ++ (m ++ (']' :: ' ' :: msg))))))
      = some ⟨r, rb, some n, some m⟩ := by
  obtain ⟨t1, h1⟩ :=
    countSplits_yes (k := aheadKw)
      (r := ',' :: ' ' :: (behindKw ++ (m ++ (']' :: ' ' :: msg)))) hn hna
      (by rw [headSat_cons]; decide)
  unfold msAhead
  rw [h1]
  apply firstSome_head
  show msComma r rb (some n)
      (',' :: ' ' :: (behindKw ++ (m ++ (']' :: ' ' :: msg)))) = _
  unfold msComma
  rw [optCharSplits_pos _ (by decide)]
  apply firstSome_head
  show msSp2 r rb (some n) (' ' :: (behindKw ++ (m ++ (']' :: ' ' :: msg)))) = _
  unfold msSp2
  rw [optCharSplits_pos _ (by decide)]
  apply firstSome_head
  show msBehind r rb (some n) (behindKw ++ (m ++ (']' :: ' ' :: msg))) = _
  obtain ⟨t2, h2⟩ :=
    countSplits_yes (k := behindKw) (r := ']' :: ' ' :: msg) hm hma
      (by rw [headSat_cons]; decide)
  unfold msBehind
  rw [h2]
  apply firstSome_head
  show msClose r rb (some n) (some m) (']' :: ' ' :: msg) = _
  exact msClose_build hmsg

theorem msAhead_a {r rb n msg : List Char}
    (hn : n ≠ []) (hna : ∀ c ∈ n, Char.isDigit c = true)
    (hmsg : ∀ c ∈ msg, notNewline c = true) :
    msAhead r rb (aheadKw ++ (n ++ (']' :: ' ' :: msg)))
      = some ⟨r, rb, some n, none⟩ := by
  obtain ⟨t1, h1⟩ :=
    countSplits_yes (k := aheadKw) (r := ']' :: ' ' :: msg) hn hna
      (by rw [headSat_cons]; decide)
  unfold msAhead
  rw [h1]
  apply firstSome_head
  show msComma r rb (some n) (']' :: ' ' :: msg) = _
  unfold msComma
  rw [optCharSplits_neg _ (by decide), firstSome_single]
  show msSp2 r rb (some n) (']' :: ' ' :: msg) = _
  unfold msSp2
  rw [optCharSplits_neg _ (by decide), firstSome_single]
  show msBehind r rb (some n) (']' :: ' ' :: msg) = _
  unfold msBehind
  rw [countSplits_no behindKw (']' :: ' ' :: msg) rfl,
      firstSome_single]
  show msClose r rb (some n) none (']' :: ' ' :: msg) = _
  exact msClose_build hmsg

theorem msAhead_b {r rb m msg : List Char}
    (hm : m ≠ []) (hma : ∀ c ∈ m, Char.isDigit c = true)
    (hmsg : ∀ c ∈ msg, notNewline c = true) :
    msAhead r rb (behindKw ++ (m ++ (']' :: ' ' :: msg)))
      = some ⟨r, rb, none, some m⟩ := by
  unfold msAhead
  rw [countSplits_no aheadKw
        (behindKw ++ (m ++ (']' :: ' ' :: msg))) rfl,
      firstSome_single]
  show msComma r rb none (behindKw ++ (m ++ (']' :: ' ' :: msg))) = _
  unfold msComma
  rw [show optCharSplits (fun c => c == ',') (behindKw ++ (m ++ (']' :: ' ' :: msg)))
        = [(none, behindKw ++ (m ++ (']' :: ' ' :: msg)))] from rfl,
      firstSome_single]
  show msSp2 r rb none (behindKw ++ (m ++ (']' :: ' ' :: msg))) = _
  unfold msSp2
  rw [show optCharSplits isSpaceChar (behindKw ++ (m ++ (']' :: ' ' :: msg)))
        = [(none, behindKw ++ (m ++ (']' :: ' ' :: msg)))] from rfl,
      firstSome_single]
  show msBehind r rb none (behindKw ++ (m ++ (']' :: ' ' :: msg))) = _
  obtain ⟨t2, h2⟩ :=
    countSplits_yes (k := behindKw) (r := ']' :: ' ' :: msg) hm hma
      (by rw [headSat_cons]; decide)
  unfold msBehind
  rw [h2]
  apply firstSome_head
  show msClose r rb none (some m) (']' :: ' ' :: msg) = _
  exact msClose_build hmsg

theorem msColon_build {r rb inner : List Char} {g : StateGroups}
    (h : msAhead r rb inner = some g) :
    msColon r rb (':' :: ' ' :: inner) = some g := by
  unfold msColon
  rw [optCharSplits_pos _ (by decide)]
  apply firstSome_head
  show msSp1 r rb (' ' :: inner) = some g
  unfold msSp1
  rw [optCharSplits_pos _ (by decide)]
  exact firstSome_head h

theorem msBranch_build {r rb tail : List Char} {g : StateGroups}
    (hrb : rb ≠ []) (hrba : ∀ c ∈ rb, isRemoteBranchChar c = true)
    (h : msColon r rb (':' :: tail) = some g) :
    msBranch r (rb ++ ':' :: tail) = some g := by
  obtain ⟨rest, hr⟩ :=
    plusSplits_app (y := ':' :: tail) hrb hrba (by rw [headSat_cons]; decide)
  unfold msBranch
  rw [hr]
  exact firstSome_head h

theorem msRemote_build {r tail : List Char} {g : StateGroups}
    (hrne : r ≠ []) (hra : ∀ c ∈ r, isRemoteChar c = true)
    (h : msBranch r tail = some g) :
    msRemote (r ++ '/' :: tail) = some g := by
  obtain ⟨rest, hr⟩ :=
    plusSplits_app (y := '/' :: tail) hrne hra (by rw [headSat_cons]; decide)
  unfold msRemote
  rw [hr]
  exact firstSome_head h

/-! ## Success-shape lemma for `BRANCH_DETAILS_RE` -/

theorem matchDetails_build {lead sp1 nm sp2 hd st : List Char}
    (hlead : lead = [] ∨ lead = ['*'])
    (hsp1 : sp1 ≠ []) (hsp1a : ∀ c ∈ sp1, c = ' ')
    (hnm : nm ≠ []) (hnma : ∀ c ∈ nm, isSpaceChar c = false)
    (hsp2 : sp2 ≠ []) (hsp2a : ∀ c ∈ sp2, c = ' ')
    (hhd : hd ≠ []) (hhda : ∀ c ∈ hd, isWordChar c = true)
    (hst : st ≠ []) (hsta : ∀ c ∈ st, notNewline c = true) :
    matchDetails (lead ++ (sp1 ++ (nm ++ (sp2 ++ (hd ++ ' ' :: st)))))
      = some ⟨nm, hd, st⟩ := by
  have hcore : mdSp1Stage (sp1 ++ (nm ++ (sp2 ++ (hd ++ ' ' :: st))))
      = some ⟨nm, hd, st⟩ := by
    have hsp1b : ∀ c ∈ sp1, isSpaceChar c = true := fun c hc => by
      rw [hsp1a c hc]
      decide
    have hys1 : headSat isSpaceChar (nm ++ (sp2 ++ (hd ++ ' ' :: st))) = false := by
      cases nm with
      | nil => exact absurd rfl hnm
      | cons a as =>
        rw [List.cons_append, headSat_cons]
        exact hnma a (by simp)
    obtain ⟨r1, h1⟩ := plusSplits_app hsp1 hsp1b hys1
    unfold mdSp1Stage
    rw [h1]
    apply firstSome_head
    show mdNameStage (nm ++ (sp2 ++ (hd ++ ' ' :: st))) = _
    have hnmb : ∀ c ∈ nm, (!(c == ' ')) = true := by
      intro c hc
      have h1c := hnma c hc
      cases hb : c == ' ' with
      | false => rfl
      | true =>
        rw [eq_of_beq hb] at h1c
        exact absurd h1c (by decide)
    have hys2 : headSat (fun c => !(c == ' ')) (sp2 ++ (hd ++ ' ' :: st)) = false := by
      cases sp2 with
      | nil => exact absurd rfl hsp2
      | cons a as =>
        rw [List.cons_append, headSat_cons, hsp2a a (by simp)]
        decide
    obtain ⟨r2, h2⟩ := plusSplits_app hnm hnmb hys2
    unfold mdNameStage
    rw [h2]
    apply firstSome_head
    show mdSp2Stage nm (sp2 ++ (hd ++ ' ' :: st)) = _
    have hsp2b : ∀ c ∈ sp2, isSpaceChar c = true := fun c hc => by
      rw [hsp2a c hc]
      decide
    have hys3 : headSat isSpaceChar (hd ++ ' ' :: st) = false := by
      cases hd with
      | nil => exact absurd rfl hhd
      | cons a as =>
        rw [List.cons_append, headSat_cons]
        exact word_not_space (hhda a (by simp))
    obtain ⟨r3, h3⟩ := plusSplits_app hsp2 hsp2b hys3
    unfold mdSp2Stage
    rw [h3]
    apply firstSome_head
    show mdHeadStage nm (hd ++ ' ' :: st) = _
    have hys4 : headSat isWordChar (' ' :: st) = false := by
      rw [headSat_cons]
      decide
    obtain ⟨r4, h4⟩ := plusSplits_app hhd hhda hys4
    unfold mdHeadStage
    rw [h4]
    apply firstSome_head
    show mdStateStage nm hd st = _
    obtain ⟨r5, h5⟩ := plusSplits_app (y := ([] : List Char)) hst hsta rfl
    rw [List.append_nil] at h5
    unfold mdStateStage
    rw [h5]
    exact firstSome_head rfl
  rcases hlead with rfl | rfl
  · rw [List.nil_append]
    cases hsp1e : sp1 with
    | nil => exact absurd hsp1e hsp1
    | cons a as =>
      have ha : a = ' ' := hsp1a a (by rw [hsp1e]; simp)
      subst ha
      rw [hsp1e] at hcore
      unfold matchDetails
      rw [List.cons_append, optCharSplits_neg _ (by decide), firstSome_single]
      exact hcore
  · unfold matchDetails
    rw [List.singleton_append, optCharSplits_pos _ (by decide)]
    apply firstSome_head
    show mdSp1Stage (sp1 ++ (nm ++ (sp2 ++ (hd ++ ' ' :: st)))) = _
    exact hcore

/-! ## Composition helpers -/

theorem parse_some_some (line : String) {g : LineGroups} {sg : StateGroups}
    (h1 : matchDetails line.toList = some g) (h2 : matchState g.state = some sg) :
    parse_branch_details line
      = some ⟨g.name.asString, g.head.asString,
              some sg.remote.asString, some sg.remote_branch.asString,
              (natOfDigits (sg.ahead.getD ['0']) : Int),
              (natOfDigits (sg.behind.getD ['0']) : Int)⟩ := by
  simp only [parse_branch_details, h1, h2]

theorem parse_some_none (line : String) {g : LineGroups}
    (h1 : matchDetails line.toList = some g) (h2 : matchState g.state = none) :
    parse_branch_details line
      = some ⟨g.name.asString, g.head.asString, none, none, 0, 0⟩ := by
  simp only [parse_branch_details, h1, h2]

/-! ## Newline-freeness of assembled states -/

theorem state_ab_notNewline {r rb n m msg : List Char}
    (hra : ∀ c ∈ r, isRemoteChar c = true)
    (hrbn : ∀ c ∈ rb, notNewline c = true)
    (hna : ∀ c ∈ n, Char.isDigit c = true)
    (hma : ∀ c ∈ m, Char.isDigit c = true)
    (hmsg : ∀ c ∈ msg, notNewline c = true) :
    ∀ c ∈ ('[' :: (r ++ ('/' :: (rb ++ (':' :: ' ' ::
        (aheadKw ++ (n ++ (',' :: ' ' ::
          (behindKw ++ (m ++ (']' :: ' ' :: msg))))))))))),
      notNewline c = true := by
  refine List.forall_mem_cons.mpr ⟨by decide, ?_⟩
  refine List.forall_mem_append.mpr ⟨fun c hc => remote_notNewline (hra c hc), ?_⟩
  refine List.forall_mem_cons.mpr ⟨by decide, ?_⟩
  refine List.forall_mem_append.mpr ⟨hrbn, ?_⟩
  refine List.forall_mem_cons.mpr ⟨by decide, ?_⟩
  refine List.forall_mem_cons.mpr ⟨by decide, ?_⟩
  refine List.forall_mem_append.mpr ⟨by decide, ?_⟩
  refine List.forall_mem_append.mpr ⟨fun c hc => digit_notNewline (hna c hc), ?_⟩
  refine List.forall_mem_cons.mpr ⟨by decide, ?_⟩
  refine List.forall_mem_cons.mpr ⟨by decide, ?_⟩
  refine List.forall_mem_append.mpr ⟨by decide, ?_⟩
  refine List.forall_mem_append.mpr ⟨fun c hc => digit_notNewline (hma c hc), ?_⟩
  refine List.forall_mem_cons.mpr ⟨by decide, ?_⟩
  refine List.forall_mem_cons.mpr ⟨by decide, ?_⟩
  exact hmsg

theorem state_a_notNewline {r rb n msg : List Char}
    (hra : ∀ c ∈ r, isRemoteChar c = true)
    (hrbn : ∀ c ∈ rb, notNewline c = true)
    (hna : ∀ c ∈ n, Char.isDigit c = true)
    (hmsg : ∀ c ∈ msg, notNewline c = true) :
    ∀ c ∈ ('[' :: (r ++ ('/' :: (rb ++ (':' :: ' ' ::
        (aheadKw ++ (n ++ (']' :: ' ' :: msg)))))))),
      notNewline c = true := by
  refine List.forall_mem_cons.mpr ⟨by decide, ?_⟩
  refine List.forall_mem_append.mpr ⟨fun c hc => remote_notNewline (hra c hc), ?_⟩
  refine List.forall_mem_cons.mpr ⟨by decide, ?_⟩
  refine List.forall_mem_append.mpr ⟨hrbn, ?_⟩
  refine List.forall_mem_cons.mpr ⟨by decide, ?_⟩
  refine List.forall_mem_cons.mpr ⟨by decide, ?_⟩
  refine List.forall_mem_append.mpr ⟨by decide, ?_⟩
  refine List.forall_mem_append.mpr ⟨fun c hc => digit_notNewline (hna c hc), ?_⟩
  refine List.forall_mem_cons.mpr ⟨by decide, ?_⟩
  refine List.forall_mem_cons.mpr ⟨by decide, ?_⟩
  exact hmsg

theorem state_b_notNewline {r rb m msg : List Char}
    (hra : ∀ c ∈ r, isRemoteChar c = true)
    (hrbn : ∀ c ∈ rb, notNewline c = true)
    (hma : ∀ c ∈ m, Char.isDigit c = true)
    (hmsg : ∀ c ∈ msg, notNewline c = true) :
    ∀ c ∈ ('[' :: (r ++ ('/' :: (rb ++ (':' :: ' ' ::
        (behindKw ++ (m ++ (']' :: ' ' :: msg)))))))),
      notNewline c = true := by
  refine List.forall_mem_cons.mpr ⟨by decide, ?_⟩
  refine List.forall_mem_append.mpr ⟨fun c hc => remote_notNewline (hra c hc), ?_⟩
  refine List.forall_mem_cons.mpr ⟨by decide, ?_⟩
  refine List.forall_mem_append.mpr ⟨hrbn, ?_⟩
  refine List.forall_mem_cons.mpr ⟨by decide, ?_⟩
  refine List.forall_mem_cons.mpr ⟨by decide, ?_⟩
  refine List.forall_mem_append.mpr ⟨by decide, ?_⟩
  refine List.forall_mem_append.mpr ⟨fun c hc => digit_notNewline (hma c hc), ?_⟩
  refine List.forall_mem_cons.mpr ⟨by decide, ?_⟩
  refine List.forall_mem_cons.mpr ⟨by decide, ?_⟩
  exact hmsg

/-! ## Claim theorems -/

set_option maxRecDepth 10000 in
/-- C1: every line of the outer shape whose state carries a bracketed
annotation of the form `[R/B: ahead N, behind M]` parses to a record with
`remote = R`, `remoteBranch = B`, `ahead = N`, `behind = M`; and the
five-line reference listing parses to exactly the five expected records,
in order. -/
theorem claim1_tracked_ahead_behind :
    (∀ (line : String) (lead sp1 nm sp2 hd r rb n m msg : List Char),
      lead = [] ∨ lead = ['*'] →
      sp1 ≠ [] → (∀ c ∈ sp1, c = ' ') →
      nm ≠ [] → (∀ c ∈ nm, isSpaceChar c = false) →
      sp2 ≠ [] → (∀ c ∈ sp2, c = ' ') →
      hd ≠ [] → (∀ c ∈ hd, isWordChar c = true) →
      r ≠ [] → (∀ c ∈ r, isRemoteChar c = true) →
      rb ≠ [] → (∀ c ∈ rb, isRemoteBranchChar c = true) →
      (∀ c ∈ rb, notNewline c = true) →
      n ≠ [] → (∀ c ∈ n, Char.isDigit c = true) →
      m ≠ [] → (∀ c ∈ m, Char.isDigit c = true) →
      (∀ c ∈ msg, notNewline c = true) →
      line.toList = lead ++ (sp1 ++ (nm ++ (sp2 ++ (hd ++ ' ' ::
        ('[' :: (r ++ ('/' :: (rb ++ (':' :: ' ' ::
          (aheadKw ++ (n ++ (',' :: ' ' ::
            (behindKw ++ (m ++ (']' :: ' ' :: msg))))))))))))))) →
      parse_branch_details line
        = some ⟨nm.asString, hd.asString, some r.asString, some rb.asString,
                (natOfDigits n : Int), (natOfDigits m : Int)⟩)
    ∧ parse_git_branch_output refLines = refBranches := by
  constructor
  · intro line lead sp1 nm sp2 hd r rb n m msg hlead hsp1 hsp1a hnm hnma hsp2
      hsp2a hhd hhda hrne hra hrbne hrba hrbn hn hna hm hma hmsg heq
    have hsta := state_ab_notNewline hra hrbn hna hma hmsg
    have hmd : matchDetails line.toList
        = some ⟨nm, hd, '[' :: (r ++ ('/' :: (rb ++ (':' :: ' ' ::
            (aheadKw ++ (n ++ (',' :: ' ' ::
              (behindKw ++ (m ++ (']' :: ' ' :: msg))))))))))⟩ := by
      rw [heq]
      exact matchDetails_build hlead hsp1 hsp1a hnm hnma hsp2 hsp2a hhd hhda
        (by simp) hsta
    have hms : matchState ('[' :: (r ++ ('/' :: (rb ++ (':' :: ' ' ::
          (aheadKw ++ (n ++ (',' :: ' ' ::
            (behindKw ++ (m ++ (']' :: ' ' :: msg)))))))))))
        = some ⟨r, rb, some n, some m⟩ := by
      rw [matchState_cons]
      exact msRemote_build hrne hra
        (msBranch_build hrbne hrba (msColon_build (msAhead_ab hn hna hm hma hmsg)))
    exact parse_some_some line hmd hms
  · decide

/-- Witness for C1 at a concrete line. -/
theorem claim1_witness :
    parse_branch_details "  dev 1abc2 [origin/dev: ahead 3, behind 4] hello"
      = some ⟨"dev", "1abc2", some "origin", some "dev", 3, 4⟩ :=
  claim1_tracked_ahead_behind.1
    "  dev 1abc2 [origin/dev: ahead 3, behind 4] hello"
    [] [' ', ' '] ['d', 'e', 'v'] [' '] ['1', 'a', 'b', 'c', '2']
    ['o', 'r', 'i', 'g', 'i', 'n'] ['d', 'e', 'v'] ['3'] ['4']
    ['h', 'e', 'l', 'l', 'o']
    (Or.inl rfl) (by decide) (by decide) (by decide) (by decide) (by decide)
    (by decide) (by decide) (by decide) (by decide) (by decide) (by decide)
    (by decide) (by decide) (by decide) (by decide) (by decide) (by decide)
    (by decide) (by decide)

/-- C3: a well-formed line whose annotation carries only `ahead N` parses
with `behind = 0`, and symmetrically a line whose annotation carries only
`behind M` parses with `ahead = 0`. -/
theorem claim3_single_direction :
    (∀ (line : String) (lead sp1 nm sp2 hd r rb n msg : List Char),
      lead = [] ∨ lead = ['*'] →
      sp1 ≠ [] → (∀ c ∈ sp1, c = ' ') →
      nm ≠ [] → (∀ c ∈ nm, isSpaceChar c = false) →
      sp2 ≠ [] → (∀ c ∈ sp2, c = ' ') →
      hd ≠ [] → (∀ c ∈ hd, isWordChar c = true) →
      r ≠ [] → (∀ c ∈ r, isRemoteChar c = true) →
      rb ≠ [] → (∀ c ∈ rb, isRemoteBranchChar c = true) →
      (∀ c ∈ rb, notNewline c = true) →
      n ≠ [] → (∀ c ∈ n, Char.isDigit c = true) →
      (∀ c ∈ msg, notNewline c = true) →
      line.toList = lead ++ (sp1 ++ (nm ++ (sp2 ++ (hd ++ ' ' ::
        ('[' :: (r ++ ('/' :: (rb ++ (':' :: ' ' ::
          (aheadKw ++ (n ++ (']' :: ' ' :: msg)))))))))))) →
      parse_branch_details line
        = some ⟨nm.asString, hd.asString, some r.asString, some rb.asString,
                (natOfDigits n : Int), 0⟩)
    ∧ (∀ (line : String) (lead sp1 nm sp2 hd r rb m msg : List Char),
      lead = [] ∨ lead = ['*'] →
      sp1 ≠ [] → (∀ c ∈ sp1, c = ' ') →
      nm ≠ [] → (∀ c ∈ nm, isSpaceChar c = false) →
      sp2 ≠ [] → (∀ c ∈ sp2, c = ' ') →
      hd ≠ [] → (∀ c ∈ hd, isWordChar c = true) →
      r ≠ [] → (∀ c ∈ r, isRemoteChar c = true) →
      rb ≠ [] → (∀ c ∈ rb, isRemoteBranchChar c = true) →
      (∀ c ∈ rb, notNewline c = true) →
      m ≠ [] → (∀ c ∈ m, Char.isDigit c = true) →
      (∀ c ∈ msg, notNewline c = true) →
      line.toList = lead ++ (sp1 ++ (nm ++ (sp2 ++ (hd ++ ' ' ::
        ('[' :: (r ++ ('/' :: (rb ++ (':' :: ' ' ::
          (behindKw ++ (m ++ (']' :: ' ' :: msg)))))))))))) →
      parse_branch_details line
        = some ⟨nm.asString, hd.asString, some r.asString, some rb.asString,
                0, (natOfDigits m : Int)⟩) := by
  constructor
  · intro line lead sp1 nm sp2 hd r rb n msg hlead hsp1 hsp1a hnm hnma hsp2
      hsp2a hhd hhda hrne hra hrbne hrba hrbn hn hna hmsg heq
    have hsta := state_a_notNewline hra hrbn hna hmsg
    have hmd : matchDetails line.toList
        = some ⟨nm, hd, '[' :: (r ++ ('/' :: (rb ++ (':' :: ' ' ::
            (aheadKw ++ (n ++ (']' :: ' ' :: msg)))))))⟩ := by
      rw [heq]
      exact matchDetails_build hlead hsp1 hsp1a hnm hnma hsp2 hsp2a hhd hhda
        (by simp) hsta
    have hms : matchState ('[' :: (r ++ ('/' :: (rb ++ (':' :: ' ' ::
          (aheadKw ++ (n ++ (']' :: ' ' :: msg))))))))
        = some ⟨r, rb, some n, none⟩ := by
      rw [matchState_cons]
      exact msRemote_build hrne hra
        (msBranch_build hrbne hrba (msColon_build (msAhead_a hn hna hmsg)))
    exact parse_some_some line hmd hms
  · intro line lead sp1 nm sp2 hd r rb m msg hlead hsp1 hsp1a hnm hnma hsp2
      hsp2a hhd hhda hrne hra hrbne hrba hrbn hm hma hmsg heq
    have hsta := state_b_notNewline hra hrbn hma hmsg
    have hmd : matchDetails line.toList
        = some ⟨nm, hd, '[' :: (r ++ ('/' :: (rb ++ (':' :: ' ' ::
            (behindKw ++ (m ++ (']' :: ' ' :: msg)))))))⟩ := by
      rw [heq]
      exact matchDetails_build hlead hsp1 hsp1a hnm hnma hsp2 hsp2a hhd hhda
        (by simp) hsta
    have hms : matchState ('[' :: (r ++ ('/' :: (rb ++ (':' :: ' ' ::
          (behindKw ++ (m ++ (']' :: ' ' :: msg))))))))
        = some ⟨r, rb, none, some m⟩ := by
      rw [matchState_cons]
      exact msRemote_build hrne hra
        (msBranch_build hrbne hrba (msColon_build (msAhead_b hm hma hmsg)))
    exact parse_some_some line hmd hms

/-- Witness for C3 at two concrete lines. -/
theorem claim3_witness :
    parse_branch_details "  dev 1abc2 [origin/dev: ahead 3] hi"
        = some ⟨"dev", "1abc2", some "origin", some "dev", 3, 0⟩
    ∧ parse_branch_details "  dev 1abc2 [origin/dev: behind 4] hi"
        = some ⟨"dev", "1abc2", some "origin", some "dev", 0, 4⟩ :=
  ⟨claim3_single_direction.1
    "  dev 1abc2 [origin/dev: ahead 3] hi"
    [] [' ', ' '] ['d', 'e', 'v'] [' '] ['1', 'a', 'b', 'c', '2']
    ['o', 'r', 'i', 'g', 'i', 'n'] ['d', 'e', 'v'] ['3'] ['h', 'i']
    (Or.inl rfl) (by decide) (by decide) (by decide) (by decide) (by decide)
    (by decide) (by decide) (by decide) (by decide) (by decide) (by decide)
    (by decide) (by decide) (by decide) (by decide) (by decide) (by decide),
   claim3_single_direction.2
    "  dev 1abc2 [origin/dev: behind 4] hi"
    [] [' ', ' '] ['d', 'e', 'v'] [' '] ['1', 'a', 'b', 'c', '2']
    ['o', 'r', 'i', 'g', 'i', 'n'] ['d', 'e', 'v'] ['4'] ['h', 'i']
    (Or.inl rfl) (by decide) (by decide) (by decide) (by decide) (by decide)
    (by decide) (by decide) (by decide) (by decide) (by decide) (by decide)
    (by decide) (by decide) (by decide) (by decide) (by decide) (by decide)⟩

theorem matchState_not_bracket {c : Char} {cs : List Char} (h : ¬ c = '[') :
    matchState (c :: cs) = none := by
  unfold matchState
  split
  · next cs1 heq =>
      injection heq with h1 h2
      exact absurd h1 h
  · rfl

/-- C2: a line that matches the outer shape but whose state carries no
bracketed tracking annotation yields a record with `remote` and
`remote_branch` absent and `ahead = behind = 0`; in particular this holds
for every well-formed line whose state does not open with a bracket. -/
theorem claim2_untracked_record :
    (∀ (line : String) (g : LineGroups),
      matchDetails line.toList = some g →
      matchState g.state = none →
      parse_branch_details line
        = some ⟨g.name.asString, g.head.asString, none, none, 0, 0⟩)
    ∧ (∀ (line : String) (lead sp1 nm sp2 hd : List Char) (c : Char)
        (st : List Char),
      lead = [] ∨ lead = ['*'] →
      sp1 ≠ [] → (∀ c ∈ sp1, c = ' ') →
      nm ≠ [] → (∀ c ∈ nm, isSpaceChar c = false) →
      sp2 ≠ [] → (∀ c ∈ sp2, c = ' ') →
      hd ≠ [] → (∀ c ∈ hd, isWordChar c = true) →
      (∀ x ∈ c :: st, notNewline x = true) →
      ¬ c = '[' →
      line.toList = lead ++ (sp1 ++ (nm ++ (sp2 ++ (hd ++ ' ' :: c :: st)))) →
      parse_branch_details line
        = some ⟨nm.asString, hd.asString, none, none, 0, 0⟩) := by
  constructor
  · intro line g h1 h2
    exact parse_some_none line h1 h2
  · intro line lead sp1 nm sp2 hd c st hlead hsp1 hsp1a hnm hnma hsp2 hsp2a
      hhd hhda hsta hc heq
    have hmd : matchDetails line.toList = some ⟨nm, hd, c :: st⟩ := by
      rw [heq]
      exact matchDetails_build hlead hsp1 hsp1a hnm hnma hsp2 hsp2a hhd hhda
        (by simp) hsta
    exact parse_some_none line hmd (matchState_not_bracket hc)

/-- Witness for C2 at two concrete lines (state with no bracket at all,
and the annotation-free reference line). -/
theorem claim2_witness :
    parse_branch_details "  local-only                      9a7b693 Only local this one"
        = some ⟨"local-only", "9a7b693", none, none, 0, 0⟩
    ∧ parse_branch_details "  dev 1abc2 some words"
        = some ⟨"dev", "1abc2", none, none, 0, 0⟩ :=
  ⟨claim2_untracked_record.1
    "  local-only                      9a7b693 Only local this one"
    ⟨['l', 'o', 'c', 'a', 'l', '-', 'o', 'n', 'l', 'y'],
     ['9', 'a', '7', 'b', '6', '9', '3'],
     "Only local this one".toList⟩ (by decide) (by decide),
   claim2_untracked_record.2 "  dev 1abc2 some words"
    [] [' ', ' '] ['d', 'e', 'v'] [' '] ['1', 'a', 'b', 'c', '2']
    's' "ome words".toList
    (Or.inl rfl) (by decide) (by decide) (by decide) (by decide) (by decide)
    (by decide) (by decide) (by decide) (by decide) (by decide) (by decide)⟩

/-! ## Suffix soundness of the state matcher -/

theorem plusSplits_suffix {p : Char → Bool} {cs : List Char}
    {s : List Char × List Char} (h : s ∈ plusSplits p cs) : s.2 <:+ cs := by
  induction cs generalizing s with
  | nil => simp [plusSplits] at h
  | cons c cs ih =>
    rw [plusSplits_cons] at h
    by_cases hc : p c = true
    · rw [if_pos hc] at h
      rcases List.mem_append.mp h with h1 | h1
      · obtain ⟨a, ha, hae⟩ := List.mem_map.mp h1
        rw [← hae]
        exact (ih ha).trans (List.suffix_cons c cs)
      · simp only [List.mem_singleton] at h1
        rw [h1]
        exact List.suffix_cons c cs
    · rw [if_neg hc] at h
      simp at h

theorem starSplits_suffix {p : Char → Bool} {cs : List Char}
    {s : List Char × List Char} (h : s ∈ starSplits p cs) : s.2 <:+ cs := by
  induction cs generalizing s with
  | nil =>
    simp only [starSplits, List.mem_singleton] at h
    rw [h]
  | cons c cs ih =>
    rw [starSplits_cons] at h
    by_cases hc : p c = true
    · rw [if_pos hc] at h
      rcases List.mem_append.mp h with h1 | h1
      · obtain ⟨a, ha, hae⟩ := List.mem_map.mp h1
        rw [← hae]
        exact (ih ha).trans (List.suffix_cons c cs)
      · simp only [List.mem_singleton] at h1
        rw [h1]
    · rw [if_neg hc] at h
      simp only [List.mem_singleton] at h
      rw [h]

theorem optCharSplits_suffix {p : Char → Bool} {cs : List Char}
    {s : Option Char × List Char} (h : s ∈ optCharSplits p cs) : s.2 <:+ cs := by
  cases cs with
  | nil =>
    simp only [optCharSplits, List.mem_singleton] at h
    rw [h]
  | cons c cs =>
    cases hc : p c with
    | true =>
      rw [optCharSplits_pos cs hc] at h
      rcases List.mem_cons.mp h with h1 | h1
      · rw [h1]
        exact List.suffix_cons c cs
      · simp only [List.mem_singleton] at h1
        rw [h1]
    | false =>
      rw [optCharSplits_neg cs hc] at h
      simp only [List.mem_singleton] at h
      rw [h]

theorem dropLit_suffix {kw cs rest : List Char} (h : dropLit kw cs = some rest) :
    rest <:+ cs := by
  induction kw generalizing cs with
  | nil =>
    unfold dropLit at h
    injection h with h
    rw [h]
  | cons l ls ih =>
    cases cs with
    | nil => exact absurd h (by simp [dropLit])
    | cons c cs =>
      unfold dropLit at h
      by_cases hc : (c == l) = true
      · rw [if_pos hc] at h
        exact (ih h).trans (List.suffix_cons c cs)
      · rw [if_neg hc] at h
        exact absurd h (by simp)

theorem countSplits_suffix {kw cs : List Char}
    {s : Option (List Char) × List Char} (h : s ∈ countSplits kw cs) :
    s.2 <:+ cs := by
  unfold countSplits at h
  rcases List.mem_append.mp h with h1 | h1
  · cases hd : dropLit kw cs with
    | none => rw [hd] at h1; simp at h1
    | some cs1 =>
      rw [hd] at h1
      obtain ⟨a, ha, hae⟩ := List.mem_map.mp h1
      rw [← hae]
      exact (plusSplits_suffix ha).trans (dropLit_suffix hd)
  · simp only [List.mem_singleton] at h1
    rw [h1]

theorem hasCloseBracketSpace_of_suffix {c : Char} {t l : List Char}
    (hsuf : (']' :: c :: t) <:+ l) (hsp : isSpaceChar c = true) :
    hasCloseBracketSpace l = true := by
  obtain ⟨pre, rfl⟩ := hsuf
  induction pre with
  | nil => simp [hasCloseBracketSpace, headSat_cons, hsp]
  | cons a as ih => simp [hasCloseBracketSpace, ih]

theorem msClose_sound {r rb : List Char} {ah bh : Option (List Char)}
    {cs : List Char} {g : StateGroups} (h : msClose r rb ah bh cs = some g) :
    ∃ c t, (']' :: c :: t) <:+ cs ∧ isSpaceChar c = true := by
  unfold msClose at h
  split at h
  · next c cs2 =>
      by_cases hc : isSpaceChar c = true
      · exact ⟨c, cs2, List.suffix_refl _, hc⟩
      · rw [if_neg hc] at h
        exact absurd h (by simp)
  · exact absurd h (by simp)

theorem msBehind_sound {r rb : List Char} {ah : Option (List Char)}
    {cs : List Char} {g : StateGroups} (h : msBehind r rb ah cs = some g) :
    ∃ c t, (']' :: c :: t) <:+ cs ∧ isSpaceChar c = true := by
  unfold msBehind at h
  obtain ⟨s, hs, hf⟩ := firstSome_mem h
  obtain ⟨c, t, hsuf, hsp⟩ := msClose_sound hf
  exact ⟨c, t, hsuf.trans (countSplits_suffix hs), hsp⟩

theorem msSp2_sound {r rb : List Char} {ah : Option (List Char)}
    {cs : List Char} {g : StateGroups} (h : msSp2 r rb ah cs = some g) :
    ∃ c t, (']' :: c :: t) <:+ cs ∧ isSpaceChar c = true := by
  unfold msSp2 at h
  obtain ⟨s, hs, hf⟩ := firstSome_mem h
  obtain ⟨c, t, hsuf, hsp⟩ := msBehind_sound hf
  exact ⟨c, t, hsuf.trans (optCharSplits_suffix hs), hsp⟩

theorem msComma_sound {r rb : List Char} {ah : Option (List Char)}
    {cs : List Char} {g : StateGroups} (h : msComma r rb ah cs = some g) :
    ∃ c t, (']' :: c :: t) <:+ cs ∧ isSpaceChar c = true := by
  unfold msComma at h
  obtain ⟨s, hs, hf⟩ := firstSome_mem h
  obtain ⟨c, t, hsuf, hsp⟩ := msSp2_sound hf
  exact ⟨c, t, hsuf.trans (optCharSplits_suffix hs), hsp⟩

theorem msAhead_sound {r rb : List Char} {cs : List Char} {g : StateGroups}
    (h : msAhead r rb cs = some g) :
    ∃ c t, (']' :: c :: t) <:+ cs ∧ isSpaceChar c = true := by
  unfold msAhead at h
  obtain ⟨s, hs, hf⟩ := firstSome_mem h
  obtain ⟨c, t, hsuf, hsp⟩ := msComma_sound hf
  exact ⟨c, t, hsuf.trans (countSplits_suffix hs), hsp⟩

theorem msSp1_sound {r rb : List Char} {cs : List Char} {g : StateGroups}
    (h : msSp1 r rb cs = some g) :
    ∃ c t, (']' :: c :: t) <:+ cs ∧ isSpaceChar c = true := by
  unfold msSp1 at h
  obtain ⟨s, hs, hf⟩ := firstSome_mem h
  obtain ⟨c, t, hsuf, hsp⟩ := msAhead_sound hf
  exact ⟨c, t, hsuf.trans (optCharSplits_suffix hs), hsp⟩

theorem msColon_sound {r rb : List Char} {cs : List Char} {g : StateGroups}
    (h : msColon r rb cs = some g) :
    ∃ c t, (']' :: c :: t) <:+ cs ∧ isSpaceChar c = true := by
  unfold msColon at h
  obtain ⟨s, hs, hf⟩ := firstSome_mem h
  obtain ⟨c, t, hsuf, hsp⟩ := msSp1_sound hf
  exact ⟨c, t, hsuf.trans (optCharSplits_suffix hs), hsp⟩

theorem msBranch_sound {r : List Char} {cs : List Char} {g : StateGroups}
    (h : msBranch r cs = some g) :
    ∃ c t, (']' :: c :: t) <:+ cs ∧ isSpaceChar c = true := by
  unfold msBranch at h
  obtain ⟨s, hs, hf⟩ := firstSome_mem h
  obtain ⟨c, t, hsuf, hsp⟩ := msColon_sound hf
  exact ⟨c, t, hsuf.trans (plusSplits_suffix hs), hsp⟩

theorem msRemote_sound {cs : List Char} {g : StateGroups}
    (h : msRemote cs = some g) :
    ∃ c t, (']' :: c :: t) <:+ cs ∧ isSpaceChar c = true := by
  unfold msRemote at h
  obtain ⟨s, hs, hf⟩ := firstSome_mem h
  split at hf
  · next cs2 heq =>
      obtain ⟨c, t, hsuf, hsp⟩ := msBranch_sound hf
      have h1 : cs2 <:+ s.2 := by
        rw [heq]
        exact List.suffix_cons '/' cs2
      exact ⟨c, t, (hsuf.trans h1).trans (plusSplits_suffix hs), hsp⟩
  · exact absurd hf (by simp)

theorem matchState_sound {cs : List Char} {g : StateGroups}
    (h : matchState cs = some g) :
    ∃ c t, (']' :: c :: t) <:+ cs ∧ isSpaceChar c = true := by
  cases cs with
  | nil => exact absurd h (by simp [matchState])
  | cons a as =>
    by_cases ha : a = '['
    · subst ha
      rw [matchState_cons] at h
      obtain ⟨c, t, hsuf, hsp⟩ := msRemote_sound h
      exact ⟨c, t, hsuf.trans (List.suffix_cons _ as), hsp⟩
    · rw [matchState_not_bracket ha] at h
      exact absurd h (by simp)

theorem matchState_none_of_noCloseSpace {cs : List Char}
    (h : hasCloseBracketSpace cs = false) : matchState cs = none := by
  cases hm : matchState cs with
  | none => rfl
  | some g =>
    obtain ⟨c, t, hsuf, hsp⟩ := matchState_sound hm
    rw [hasCloseBracketSpace_of_suffix hsuf hsp] at h
    exact absurd h (by simp)

/-- C10: the tracking annotation is recognized only when the bracket
opens the state text and the closing bracket is followed by whitespace.
A line of the outer shape whose state does not begin with `[` (as happens
when extra spaces precede the bracket, since the outer pattern takes
exactly one space after the commit id), or whose state has no `]`
followed by a whitespace character (as happens when the state ends right
at the closing bracket), parses to a record with `remote` and
`remote_branch` absent and `ahead = behind = 0` rather than failing. -/
theorem claim10_bracket_position :
    (∀ (line : String) (g : LineGroups),
      matchDetails line.toList = some g →
      headSat (fun c => c == '[') g.state = false ∨
        hasCloseBracketSpace g.state = false →
      parse_branch_details line
        = some ⟨g.name.asString, g.head.asString, none, none, 0, 0⟩)
    ∧ (∀ (line : String) (lead sp1 nm sp2 hd st : List Char),
      lead = [] ∨ lead = ['*'] →
      sp1 ≠ [] → (∀ c ∈ sp1, c = ' ') →
      nm ≠ [] → (∀ c ∈ nm, isSpaceChar c = false) →
      sp2 ≠ [] → (∀ c ∈ sp2, c = ' ') →
      hd ≠ [] → (∀ c ∈ hd, isWordChar c = true) →
      (∀ x ∈ ' ' :: st, notNewline x = true) →
      line.toList = lead ++ (sp1 ++ (nm ++ (sp2 ++ (hd ++ ' ' :: ' ' :: st)))) →
      parse_branch_details line
        = some ⟨nm.asString, hd.asString, none, none, 0, 0⟩) := by
  have key : ∀ (line : String) (g : LineGroups),
      matchDetails line.toList = some g →
      headSat (fun c => c == '[') g.state = false ∨
        hasCloseBracketSpace g.state = false →
      parse_branch_details line
        = some ⟨g.name.asString, g.head.asString, none, none, 0, 0⟩ := by
    intro line g h1 h2
    have hnone : matchState g.state = none := by
      rcases h2 with h2 | h2
      · cases hst : g.state with
        | nil => rfl
        | cons a as =>
          rw [hst, headSat_cons] at h2
          refine matchState_not_bracket ?_
          intro ha
          rw [ha] at h2
          exact absurd h2 (by decide)
      · exact matchState_none_of_noCloseSpace h2
    exact parse_some_none line h1 hnone
  refine ⟨key, ?_⟩
  intro line lead sp1 nm sp2 hd st hlead hsp1 hsp1a hnm hnma hsp2 hsp2a
    hhd hhda hsta heq
  have hmd : matchDetails line.toList = some ⟨nm, hd, ' ' :: st⟩ := by
    rw [heq]
    exact matchDetails_build hlead hsp1 hsp1a hnm hnma hsp2 hsp2a hhd hhda
      (by simp) hsta
  exact key line ⟨nm, hd, ' ' :: st⟩ hmd (Or.inl (by rw [headSat_cons]; decide))

/-- Witness for C10: a line with two spaces before the bracket, and a
line whose state ends at the closing bracket, both parse as untracked. -/
theorem claim10_witness :
    parse_branch_details "  b 1a2b3c  [origin/b] msg"
        = some ⟨"b", "1a2b3c", none, none, 0, 0⟩
    ∧ parse_branch_details "  b 1a2b3c [origin/b]"
        = some ⟨"b", "1a2b3c", none, none, 0, 0⟩ :=
  ⟨claim10_bracket_position.2 "  b 1a2b3c  [origin/b] msg"
    [] [' ', ' '] ['b'] [' '] ['1', 'a', '2', 'b', '3', 'c']
    "[origin/b] msg".toList
    (Or.inl rfl) (by decide) (by decide) (by decide) (by decide) (by decide)
    (by decide) (by decide) (by decide) (by decide) (by decide),
   claim10_bracket_position.1 "  b 1a2b3c [origin/b]"
    ⟨['b'], ['1', 'a', '2', 'b', '3', 'c'], "[origin/b]".toList⟩
    (by decide) (Or.inr (by decide))⟩

/-! ## Remote group shape -/

theorem plusSplits_fst_ne_nil {p : Char → Bool} {cs : List Char}
    {s : List Char × List Char} (h : s ∈ plusSplits p cs) : s.1 ≠ [] := by
  induction cs generalizing s with
  | nil => simp [plusSplits] at h
  | cons c cs ih =>
    rw [plusSplits_cons] at h
    by_cases hc : p c = true
    · rw [if_pos hc] at h
      rcases List.mem_append.mp h with h1 | h1
      · obtain ⟨a, ha, hae⟩ := List.mem_map.mp h1
        rw [← hae]
        simp
      · simp only [List.mem_singleton] at h1
        rw [h1]
        simp
    · rw [if_neg hc] at h
      simp at h

theorem msTail_remote {r rb : List Char} {ah bh : Option (List Char)}
    {cs : List Char} {g : StateGroups} (h : msTail r rb ah bh cs = some g) :
    g.remote = r := by
  unfold msTail at h
  obtain ⟨s, hs, hf⟩ := firstSome_mem h
  split at hf
  · injection hf with hf
    rw [← hf]
  · exact absurd hf (by simp)

theorem msClose_remote {r rb : List Char} {ah bh : Option (List Char)}
    {cs : List Char} {g : StateGroups} (h : msClose r rb ah bh cs = some g) :
    g.remote = r := by
  unfold msClose at h
  split at h
  · split at h
    · exact msTail_remote h
    · exact absurd h (by simp)
  · exact absurd h (by simp)

theorem msBehind_remote {r rb : List Char} {ah : Option (List Char)}
    {cs : List Char} {g : StateGroups} (h : msBehind r rb ah cs = some g) :
    g.remote = r := by
  unfold msBehind at h
  obtain ⟨s, hs, hf⟩ := firstSome_mem h
  exact msClose_remote hf

theorem msSp2_remote {r rb : List Char} {ah : Option (List Char)}
    {cs : List Char} {g : StateGroups} (h : msSp2 r rb ah cs = some g) :
    g.remote = r := by
  unfold msSp2 at h
  obtain ⟨s, hs, hf⟩ := firstSome_mem h
  exact msBehind_remote hf

theorem msComma_remote {r rb : List Char} {ah : Option (List Char)}
    {cs : List Char} {g : StateGroups} (h : msComma r rb ah cs = some g) :
    g.remote = r := by
  unfold msComma at h
  obtain ⟨s, hs, hf⟩ := firstSome_mem h
  exact msSp2_remote hf

theorem msAhead_remote {r rb : List Char} {cs : List Char} {g : StateGroups}
    (h : msAhead r rb cs = some g) : g.remote = r := by
  unfold msAhead at h
  obtain ⟨s, hs, hf⟩ := firstSome_mem h
  exact msComma_remote hf

theorem msSp1_remote {r rb : List Char} {cs : List Char} {g : StateGroups}
    (h : msSp1 r rb cs = some g) : g.remote = r := by
  unfold msSp1 at h
  obtain ⟨s, hs, hf⟩ := firstSome_mem h
  exact msAhead_remote hf

theorem msColon_remote {r rb : List Char} {cs : List Char} {g : StateGroups}
    (h : msColon r rb cs = some g) : g.remote = r := by
  unfold msColon at h
  obtain ⟨s, hs, hf⟩ := firstSome_mem h
  exact msSp1_remote hf

theorem msBranch_remote {r : List Char} {cs : List Char} {g : StateGroups}
    (h : msBranch r cs = some g) : g.remote = r := by
  unfold msBranch at h
  obtain ⟨s, hs, hf⟩ := firstSome_mem h
  exact msColon_remote hf

theorem msRemote_remote_ne_nil {cs : List Char} {g : StateGroups}
    (h : msRemote cs = some g) : g.remote ≠ [] := by
  unfold msRemote at h
  obtain ⟨s, hs, hf⟩ := firstSome_mem h
  split at hf
  · next cs2 heq =>
      rw [msBranch_remote hf]
      exact plusSplits_fst_ne_nil hs
  · exact absurd hf (by simp)

theorem matchState_remote_ne_nil {cs : List Char} {g : StateGroups}
    (h : matchState cs = some g) : g.remote ≠ [] := by
  cases cs with
  | nil => exact absurd h (by simp [matchState])
  | cons a as =>
    by_cases ha : a = '['
    · subst ha
      rw [matchState_cons] at h
      exact msRemote_remote_ne_nil h
    · rw [matchState_not_bracket ha] at h
      exact absurd h (by simp)

theorem asString_ne_empty {l : List Char} (h : l ≠ []) : l.asString ≠ "" :=
  fun hc => h (congrArg String.data hc)

/-! ## The parsed-record invariant -/

theorem parse_branch_details_inv {line : String} {b : Branch}
    (h : parse_branch_details line = some b) :
    (b.remote_branch.isSome ↔ b.remote.isSome)
    ∧ 0 ≤ b.ahead ∧ 0 ≤ b.behind
    ∧ (b.remote = none → b.ahead = 0 ∧ b.behind = 0)
    ∧ (∀ s, b.remote = some s → s ≠ "") := by
  cases hmd : matchDetails line.toList with
  | none =>
    have hnone : parse_branch_details line = none := by
      simp only [parse_branch_details, hmd]
    rw [hnone] at h
    exact absurd h (by simp)
  | some g =>
    cases hms : matchState g.state with
    | none =>
      rw [parse_some_none line hmd hms] at h
      injection h with h
      rw [← h]
      refine ⟨by simp, by simp, by simp, fun _ => ⟨rfl, rfl⟩, ?_⟩
      intro s hs
      exact absurd hs (by simp)
    | some sg =>
      rw [parse_some_some line hmd hms] at h
      injection h with h
      rw [← h]
      refine ⟨by simp, by positivity, by positivity, by simp, ?_⟩
      intro s hs
      simp only [Option.some.injEq] at hs
      rw [← hs]
      exact asString_ne_empty (matchState_remote_ne_nil hms)

theorem parsed_inv {lines : List String} {b : Branch}
    (hb : b ∈ parse_git_branch_output lines) :
    (b.remote_branch.isSome ↔ b.remote.isSome)
    ∧ 0 ≤ b.ahead ∧ 0 ≤ b.behind
    ∧ (b.remote = none → b.ahead = 0 ∧ b.behind = 0)
    ∧ (∀ s, b.remote = some s → s ≠ "") := by
  obtain ⟨l, hl, hpl⟩ := List.mem_filterMap.mp hb
  exact parse_branch_details_inv hpl

theorem parsed_truthy {lines : List String} {b : Branch}
    (hb : b ∈ parse_git_branch_output lines) :
    optStrTruthy b.remote = b.remote.isSome := by
  have h := (parsed_inv hb).2.2.2.2
  cases hr : b.remote with
  | none => rfl
  | some s =>
    have hs : s ≠ "" := h s hr
    simp [optStrTruthy, hs]

/-- C8: every parsed record satisfies the `BranchRecord` invariant. -/
theorem claim8_record_invariant :
    ∀ (lines : List String) (b : Branch), b ∈ parse_git_branch_output lines →
      (b.remote_branch.isSome ↔ b.remote.isSome)
      ∧ 0 ≤ b.ahead ∧ 0 ≤ b.behind
      ∧ (b.remote = none → b.ahead = 0 ∧ b.behind = 0) := by
  intro lines b hb
  have h := parsed_inv hb
  exact ⟨h.1, h.2.1, h.2.2.1, h.2.2.2.1⟩

/-- Witness for C8 on the reference listing. -/
theorem claim8_witness :
    (Branch.mk "local-only" "9a7b693" none none 0 0
        ∈ parse_git_branch_output refLines)
    ∧ ((Branch.mk "local-only" "9a7b693" none none 0 0).remote_branch.isSome
        ↔ (Branch.mk "local-only" "9a7b693" none none 0 0).remote.isSome) := by
  have hmem : Branch.mk "local-only" "9a7b693" none none 0 0
      ∈ parse_git_branch_output refLines := by decide
  exact ⟨hmem, (claim8_record_invariant refLines _ hmem).1⟩

/-! ## Classifier characterizations -/

theorem check_unpushed_eq {bs : List Branch}
    (hinv : ∀ b ∈ bs, optStrTruthy b.remote = b.remote.isSome ∧ 0 ≤ b.ahead) :
    check_unpushed_branches bs
      = (bs.filter (fun b => b.remote.isSome && decide (0 < b.ahead))).map
          (fun b => (b.name, b.ahead, b.behind)) := by
  induction bs with
  | nil => rfl
  | cons b bs ih =>
    have hb := hinv b (by simp)
    have ihr := ih (fun x hx => hinv x (List.mem_cons_of_mem b hx))
    unfold check_unpushed_branches
    unfold check_unpushed_branches at ihr
    cases hr : b.remote.isSome with
    | false =>
      have ht : optStrTruthy b.remote = false := by rw [hb.1, hr]
      rw [List.filterMap_cons_none (by simp [ht]),
          List.filter_cons_of_neg (by simp [hr]), ihr]
    | true =>
      have ht : optStrTruthy b.remote = true := by rw [hb.1, hr]
      by_cases ha : b.ahead = 0
      · rw [List.filterMap_cons_none (by simp [ht, ha]),
            List.filter_cons_of_neg (by simp [ha]), ihr]
      · have hlt : 0 < b.ahead := lt_of_le_of_ne hb.2 (fun hc => ha hc.symm)
        rw [List.filterMap_cons_some (b := (b.name, b.ahead, b.behind))
              (by simp [ht, ha]),
            List.filter_cons_of_pos (by simp [hr, hlt]), List.map_cons, ihr]

/-- C4: the diverged (unpushed) report holds exactly the parsed records
that have a remote and a strictly positive ahead count, as
(name, ahead, behind) triples, preserving order. -/
theorem claim4_unpushed_report :
    ∀ lines : List String,
      check_unpushed_branches (parse_git_branch_output lines)
        = ((parse_git_branch_output lines).filter
            (fun b => b.remote.isSome && decide (0 < b.ahead))).map
            (fun b => (b.name, b.ahead, b.behind)) := by
  intro lines
  exact check_unpushed_eq
    (fun b hb => ⟨parsed_truthy hb, (parsed_inv hb).2.1⟩)

theorem check_local_only_foldl (u : String → Nat) (bs : List Branch)
    (acc : List (String × Nat)) :
    bs.foldl (fun acc b =>
        if optStrTruthy b.remote then acc
        else
          if u b.name == 0 then acc
          else acc ++ [(b.name, u b.name)]) acc
      = acc ++ (bs.filter
          (fun b => !(optStrTruthy b.remote) && decide (0 < u b.name))).map
          (fun b => (b.name, u b.name)) := by
  induction bs generalizing acc with
  | nil => simp
  | cons b bs ih =>
    simp only [List.foldl_cons]
    by_cases h1 : optStrTruthy b.remote = true
    · rw [if_pos h1, List.filter_cons_of_neg (by simp [h1])]
      exact ih acc
    · rw [if_neg h1]
      have h1f : optStrTruthy b.remote = false := by simpa using h1
      by_cases h2 : u b.name = 0
      · rw [if_pos (by simp [h2]), List.filter_cons_of_neg (by simp [h2])]
        exact ih acc
      · rw [if_neg (by simp [h2]),
            List.filter_cons_of_pos (by simp [h1f, Nat.pos_of_ne_zero h2]),
            List.map_cons]
        refine (ih (acc ++ [(b.name, u b.name)])).trans ?_
        simp

theorem check_local_only_eq (u : String → Nat) (bs : List Branch)
    (hinv : ∀ b ∈ bs, optStrTruthy b.remote = b.remote.isSome) :
    check_local_only_branches u bs
      = (bs.filter (fun b => b.remote.isNone && decide (0 < u b.name))).map
          (fun b => (b.name, u b.name)) := by
  unfold check_local_only_branches
  rw [check_local_only_foldl, List.nil_append]
  have hfc : ∀ b ∈ bs,
      (!(optStrTruthy b.remote) && decide (0 < u b.name))
        = (b.remote.isNone && decide (0 < u b.name)) := by
    intro b hb
    rw [hinv b hb]
    cases hr : b.remote <;> simp
  rw [List.filter_congr hfc]

/-- C5: the local-only report holds exactly the parsed records with no
remote whose unique-commit count against the baseline branch is strictly
positive, as (name, count) pairs; and the report only depends on the
collaborator's counts at the no-remote branch names, so records with a
remote are never consulted. -/
theorem claim5_local_only_report :
    ∀ (lines : List String) (uniq : String → Nat),
      check_local_only_branches uniq (parse_git_branch_output lines)
        = ((parse_git_branch_output lines).filter
            (fun b => b.remote.isNone && decide (0 < uniq b.name))).map
            (fun b => (b.name, uniq b.name))
      ∧ ∀ uniq2 : String → Nat,
          (∀ b ∈ parse_git_branch_output lines, b.remote = none →
            uniq b.name = uniq2 b.name) →
          check_local_only_branches uniq (parse_git_branch_output lines)
            = check_local_only_branches uniq2 (parse_git_branch_output lines) := by
  intro lines uniq
  have he := check_local_only_eq uniq (parse_git_branch_output lines)
    (fun b hb => parsed_truthy hb)
  refine ⟨he, ?_⟩
  intro uniq2 hagree
  have he2 := check_local_only_eq uniq2 (parse_git_branch_output lines)
    (fun b hb => parsed_truthy hb)
  rw [he, he2]
  have hagree2 : ∀ b ∈ parse_git_branch_output lines,
      b.remote.isNone = true → uniq b.name = uniq2 b.name := by
    intro b hb hn
    exact hagree b hb (Option.isNone_iff_eq_none.mp hn)
  have hfc : ∀ b ∈ parse_git_branch_output lines,
      (b.remote.isNone && decide (0 < uniq b.name))
        = (b.remote.isNone && decide (0 < uniq2 b.name)) := by
    intro b hb
    cases hn : b.remote.isNone with
    | false => simp
    | true => rw [hagree2 b hb hn]
  rw [List.filter_congr hfc]
  refine List.map_congr_left ?_
  intro b hb
  have hmem := List.mem_filter.mp hb
  have hcond := hmem.2
  have hn : b.remote.isNone = true := by
    cases hx : b.remote.isNone with
    | true => rfl
    | false => rw [hx] at hcond; simp at hcond
  rw [hagree2 b hmem.1 hn]

set_option maxRecDepth 10000 in
/-- Witness for C5: the second conjunct applied with two collaborators
that agree on the no-remote branch names of the reference listing. -/
theorem claim5_witness :
    check_local_only_branches (fun _ => 2) (parse_git_branch_output refLines)
      = check_local_only_branches
          (fun s => if s == "local-only" then 2 else 7)
          (parse_git_branch_output refLines) := by
  refine (claim5_local_only_report refLines (fun _ => 2)).2
    (fun s => if s == "local-only" then 2 else 7) ?_
  decide

/-! ## Parse order and per-line behaviour -/

theorem parse_none_of {line : String} (h : matchDetails line.toList = none) :
    parse_branch_details line = none := by
  simp only [parse_branch_details, h]

theorem parse_isSome_of {line : String}
    (h : (matchDetails line.toList).isSome = true) :
    ∃ b, parse_branch_details line = some b := by
  obtain ⟨g, hg⟩ := Option.isSome_iff_exists.mp h
  cases hms : matchState g.state with
  | none => exact ⟨_, parse_some_none line hg hms⟩
  | some sg => exact ⟨_, parse_some_some line hg hms⟩

/-- C7: parsing yields exactly one record per line matching the outer
shape, in input order; a line that does not match yields no record, is
reported on the diagnostic channel, and parsing continues. -/
theorem claim7_parse_order :
    ∀ (bad good : String) (ls : List String),
      (matchDetails bad.toList).isNone = true →
      (matchDetails good.toList).isSome = true →
      (parse_git_branch_output (bad :: ls) = parse_git_branch_output ls
        ∧ parse_skipped (bad :: ls) = bad :: parse_skipped ls)
      ∧ (∃ b, parse_branch_details good = some b
          ∧ parse_git_branch_output (good :: ls)
              = b :: parse_git_branch_output ls
          ∧ parse_skipped (good :: ls) = parse_skipped ls)
      ∧ (parse_git_branch_output ls).length
          = (ls.filter (fun l => (matchDetails l.toList).isSome)).length := by
  intro bad good ls hbad hgood
  have hbadn : matchDetails bad.toList = none := Option.isNone_iff_eq_none.mp hbad
  have hgoodn : (matchDetails good.toList).isNone = false := by
    cases hmd : matchDetails good.toList with
    | none => rw [hmd] at hgood; simp at hgood
    | some g => rfl
  refine ⟨⟨?_, ?_⟩, ?_, ?_⟩
  · unfold parse_git_branch_output
    rw [List.filterMap_cons_none (parse_none_of hbadn)]
  · unfold parse_skipped
    have hbadn2 : matchDetails bad.data = none := hbadn
    simp [List.filter_cons, hbadn2]
  · obtain ⟨b, hb⟩ := parse_isSome_of hgood
    refine ⟨b, hb, ?_, ?_⟩
    · unfold parse_git_branch_output
      rw [List.filterMap_cons_some hb]
    · unfold parse_skipped
      have hgoodn2 : (matchDetails good.data).isNone = false := hgoodn
      simp [List.filter_cons, hgoodn2]
  · induction ls with
    | nil => rfl
    | cons l ls ih =>
      unfold parse_git_branch_output
      unfold parse_git_branch_output at ih
      cases hmd : matchDetails l.toList with
      | none =>
        rw [List.filterMap_cons_none (parse_none_of hmd),
            List.filter_cons_of_neg (by rw [hmd]; simp), ih]
      | some g =>
        have hs : (matchDetails l.toList).isSome = true := by rw [hmd]; rfl
        obtain ⟨b, hb⟩ := parse_isSome_of hs
        rw [List.filterMap_cons_some hb, List.filter_cons_of_pos (by rw [hmd]; rfl),
            List.length_cons, List.length_cons, ih]

/-- Witness for C7: an unparseable line is skipped and recorded while a
well-formed line after it still parses. -/
theorem claim7_witness :
    parse_git_branch_output ["garbage", "  a 12 ok"]
        = parse_git_branch_output ["  a 12 ok"]
    ∧ parse_skipped ["garbage", "  a 12 ok"]
        = "garbage" :: parse_skipped ["  a 12 ok"] :=
  (claim7_parse_order "garbage" "  a 12 ok" ["  a 12 ok"]
    (by decide) (by decide)).1

/-! ## Scan orchestration -/

/-- C9: a successfully scanned repository is reported "up to date" iff
it has zero stashes, no local-only branches, no diverged branches, no
untracked files and no modified files. -/
theorem claim9_up_to_date_iff :
    ∀ (repo : RepoIntrospection) (s : Nat) (lo : List (String × Nat))
      (up : List (String × Int × Int)) (ut mo : List String) (b : Bool),
      scan_repo repo = .ok (.scanned s lo up ut mo b) →
      (b = true ↔ s = 0 ∧ lo = [] ∧ up = [] ∧ ut = [] ∧ mo = []) := by
  intro repo s lo up ut mo b h
  obtain ⟨stash, bvv, lognm, lsu, lsm⟩ := repo
  cases stash with
  | error e =>
    by_cases h128 : (e.returncode == 128) = true
    · simp [scan_repo, h128] at h
    · simp [scan_repo, h128] at h
  | ok sl =>
    cases bvv with
    | error e => simp [scan_repo] at h
    | ok raw =>
      cases hcl : check_local_only_branchesE lognm (parse_git_branch_output raw) with
      | error e => simp [scan_repo, hcl] at h
      | ok lo2 =>
        cases lsu with
        | error e => simp [scan_repo, hcl] at h
        | ok ut2 =>
          cases lsm with
          | error e => simp [scan_repo, hcl] at h
          | ok mo2 =>
            simp only [scan_repo, hcl, Except.ok.injEq,
              ScanOutcome.scanned.injEq] at h
            obtain ⟨hs, hlo, hup, hut, hmo, hb⟩ := h
            subst hs
            subst hlo
            subst hup
            subst hut
            subst hmo
            subst hb
            simp [List.isEmpty_iff, Bool.and_eq_true, beq_iff_eq, and_assoc]

/-- Witness for C9 at a repository whose probes all return empty. -/
theorem claim9_witness :
    (true = true ↔ (0 : Nat) = 0 ∧ ([] : List (String × Nat)) = []
      ∧ ([] : List (String × Int × Int)) = [] ∧ ([] : List String) = []
      ∧ ([] : List String) = []) :=
  claim9_up_to_date_iff goodRepo 0 [] [] [] [] true rfl

theorem main_scan_cons (r : RepoIntrospection) (rs : List RepoIntrospection) :
    main_scan (r :: rs)
      = match scan_repo r with
        | .error e => ([], some e)
        | .ok o => (o :: (main_scan rs).1, (main_scan rs).2) := rfl

/-- C6 (amended): only the stash probe is guarded.  When it fails, the
failure is reported for that repository ("not a git repo" on exit code
128, a generic unknown failure otherwise), that repository's processing
stops, and the scan continues over the remaining repositories.  A
failure in any later probe is not caught: it escapes `scan_repo` and
aborts the whole scan, so no pass over the remaining repositories
happens. -/
theorem claim6_stash_failure_containment :
    (∀ (repo : RepoIntrospection) (rest : List RepoIntrospection)
        (e : ProcessFailed),
      repo.stash_list = .error e →
      scan_repo repo
          = .ok (if e.returncode == 128 then ScanOutcome.notGitRepo
                 else ScanOutcome.unknownStashError)
        ∧ main_scan (repo :: rest)
          = ((if e.returncode == 128 then ScanOutcome.notGitRepo
              else ScanOutcome.unknownStashError) :: (main_scan rest).1,
             (main_scan rest).2))
    ∧ (∀ (repo : RepoIntrospection) (rest : List RepoIntrospection)
        (e : ProcessFailed),
      scan_repo repo = .error e →
      main_scan (repo :: rest) = ([], some e)) := by
  constructor
  · intro repo rest e he
    have h1 : scan_repo repo
        = .ok (if e.returncode == 128 then ScanOutcome.notGitRepo
               else ScanOutcome.unknownStashError) := by
      unfold scan_repo
      rw [he]
    refine ⟨h1, ?_⟩
    rw [main_scan_cons, h1]
  · intro repo rest e he
    rw [main_scan_cons, he]

/-- Counterexample to C6 as stated: a repository whose branch-listing
probe fails makes the whole scan abort with the escaping failure; the
repository after it, although perfectly scannable on its own, is never
scanned, and the failing repository gets no per-repository report. -/
theorem claim6_counterexample :
    scan_repo badRepo = .error ⟨"Subprocess failed", 1, "boom"⟩
    ∧ main_scan [badRepo, goodRepo]
        = ([], some ⟨"Subprocess failed", 1, "boom"⟩)
    ∧ scan_repo goodRepo = .ok (.scanned 0 [] [] [] [] true) :=
  ⟨rfl, rfl, rfl⟩

/-- Witness for C6 (amended): a stash-probe failure with exit code 128
is reported as "not a git repo" and the next repository is still
scanned. -/
theorem claim6_witness :
    scan_repo stashFailRepo = .ok ScanOutcome.notGitRepo
    ∧ main_scan [stashFailRepo, goodRepo]
        = ([ScanOutcome.notGitRepo, ScanOutcome.scanned 0 [] [] [] [] true],
           none) := by
  have h := claim6_stash_failure_containment.1 stashFailRepo [goodRepo]
    ⟨"Subprocess failed", 128, "fatal"⟩ rfl
  constructor
  · simpa using h.1
  · have h2 := h.2
    simp only [show ((128 : Int) == 128) = true from rfl, if_true] at h2
    rw [h2]
    rfl

end FindLocalCode
